import Mathlib

/-! Verification of the VectorMind document chunking subsystem.

Strings are embedded as `List Char`; the byte-indexed slicing of the Go code is
modelled at character granularity, consistently across all components
(spec §4.1 leaves the unit an explicit implementation choice).
-/

namespace VectorMind

/-! Definitions -/

/-- Whitespace class of the Go RE2 regexp `\s`, namely `[\t\n\f\r ]`
(used by the heading regexes in the splitter package). -/
def isWS (c : Char) : Bool :=
  c = ' ' || c = '\t' || c = '\n' || c = '\x0C' || c = '\r'

/-- Whitespace as decided by Go `unicode.IsSpace` (the predicate behind
`strings.TrimSpace`): the Unicode White_Space code points. -/
def isGoSpace (c : Char) : Bool :=
  [0x9, 0xA, 0xB, 0xC, 0xD, 0x20, 0x85, 0xA0, 0x1680,
   0x2000, 0x2001, 0x2002, 0x2003, 0x2004, 0x2005, 0x2006, 0x2007,
   0x2008, 0x2009, 0x200A, 0x2028, 0x2029, 0x202F, 0x205F, 0x3000].contains c.toNat

/-- Go `strings.TrimSpace`: drop leading and trailing whitespace. -/
def trimSpace (s : List Char) : List Char :=
  ((s.dropWhile isGoSpace).reverse.dropWhile isGoSpace).reverse

/-- Loop of `ChunkText` (src/splitter/chunk-overlap.go): from index `start`,
emit `text[start : start+chunkSize]` and step by `chunkSize - overlap`.
The Go `for` loop is modelled with explicit fuel; one unit of fuel is spent
per loop-condition check, so a run that exhausts its fuel models a
non-terminating Go loop (which arises only when `chunkSize - overlap ≤ 0`
on nonempty text, an input-contract violation validated away by callers). -/
def chunkTextLoop (text : List Char) (chunkSize overlap : ℕ) : ℕ → ℕ → List (List Char)
  | _, 0 => []
  | start, fuel + 1 =>
    if start < text.length then
      ((text.drop start).take chunkSize) ::
        chunkTextLoop text chunkSize overlap (start + (chunkSize - overlap)) fuel
    else []

/-- Function `ChunkText` (src/splitter/chunk-overlap.go): divide `text` into windows of
`chunkSize` characters advancing by `chunkSize - overlap`.  `text.length + 1`
units of fuel suffice for every terminating run of the Go loop (proved below). -/
def chunkText (text : List Char) (chunkSize overlap : ℕ) : List (List Char) :=
  chunkTextLoop text chunkSize overlap 0 (text.length + 1)

/-- Index of the first occurrence of `d` in a list, as computed by the Go
function `strings.Index` during `strings.Split`. -/
def findDelimIdx (d : List Char) : List Char → Option ℕ
  | [] => if d.isPrefixOf ([] : List Char) then some 0 else none
  | c :: rest =>
    if d.isPrefixOf (c :: rest) then some 0
    else (findDelimIdx d rest).map (· + 1)

/-- Splitting loop of Go `strings.Split` for a nonempty separator: cut at the
first occurrence of `d`, continue past it.  Structural fuel makes the
definition kernel-computable; `t.length + 1` fuel always suffices for a
nonempty separator since every cut consumes at least one character
(`splitGoFuel_irrel` below). -/
def splitGoFuel (d : List Char) : ℕ → List Char → List (List Char)
  | 0, t => [t]
  | fuel + 1, t =>
    match findDelimIdx d t with
    | none => [t]
    | some i => t.take i :: splitGoFuel d fuel (t.drop (i + d.length))

/-- Function `SplitTextWithDelimiter` (splitter package), i.e. Go `strings.Split`:
literal, non-regex split.  An empty separator explodes the text into
one-character pieces (the Go function `explode`). -/
def splitTextWithDelimiter (text delimiter : List Char) : List (List Char) :=
  if delimiter = [] then text.map (fun c => [c])
  else splitGoFuel delimiter (text.length + 1) text

/-- Go `strings.Join`. -/
def joinWithDelimiter (pieces : List (List Char)) (delimiter : List Char) : List Char :=
  match pieces with
  | [] => []
  | [p] => p
  | p :: q :: rest => p ++ delimiter ++ joinWithDelimiter (q :: rest) delimiter

/-- The newline character, named once for readability. -/
def newlineChar : Char := '\n'

/-- The line decomposition used by the splitter package and its tests:
Go `strings.Split(s, "\n")`. -/
def linesOf (s : List Char) : List (List Char) :=
  splitTextWithDelimiter s [newlineChar]

/-- Function `ExtractFirstNonEmptyLines` (splitter package): first `n` non-blank
lines of `text`, each trimmed, joined by newlines; empty result for empty
text or `n ≤ 0`. -/
def extractFirstNonEmptyLines (text : List Char) (n : ℤ) : List Char :=
  if text = [] ∨ n ≤ 0 then []
  else
    joinWithDelimiter
      ((((linesOf text).map trimSpace).filter (· ≠ [])).take n.toNat) [newlineChar]

/-- Attempt, at one position of the document, the heading pattern of the Go
regex `(?m)^\s*#+\s+.*$` (src splitter package), given the document suffix
starting at that position.  Following the RE2 leftmost-first (greedy) match
semantics: maximal `\s` run, then a nonempty maximal `#` run, then at least
one `\s` (maximal run), then `.*` up to the end of line.  Returns the length
of the matched region, or `none`. -/
def matchHeadingLen (t : List Char) : Option ℕ :=
  let w := (t.takeWhile isWS).length
  let t1 := t.drop w
  let h := (t1.takeWhile (· = '#')).length
  if h = 0 then none
  else
    let t2 := t1.drop h
    match t2.head? with
    | none => none
    | some c =>
      if isWS c then
        let w2 := (t2.takeWhile isWS).length
        let r := ((t2.drop w2).takeWhile (· ≠ newlineChar)).length
        some (w + h + w2 + r)
      else none

/-- Scanning loop of Go `regexp.FindAllStringIndex` for the heading pattern:
try the pattern at every line start from left to right; after a match
`[s, e)`, resume the scan at `e` (matches never overlap, and every match has
positive length here).  One unit of fuel is spent per position visited;
`md.length + 1` always suffices. -/
def findFrom (md : List Char) : ℕ → ℕ → Bool → List (ℕ × ℕ)
  | 0, _, _ => []
  | fuel + 1, pos, atLineStart =>
    if hp : pos < md.length then
      match (if atLineStart then matchHeadingLen (md.drop pos) else none) with
      | some len => (pos, pos + len) :: findFrom md fuel (pos + len) false
      | none => findFrom md fuel (pos + 1) (md.get ⟨pos, hp⟩ = newlineChar)
    else []

/-- All matches `[start, end)` of the heading regex `(?m)^\s*#+\s+.*$` in the
document, in order (Go `regexp.FindAllStringIndex`). -/
def findHeadingMatches (md : List Char) : List (ℕ × ℕ) :=
  findFrom md (md.length + 1) 0 true

/-- Function `SplitMarkdownBySections` (splitter package): split at the start of each
heading-regex match; text before the first heading becomes its own leading
section when non-blank; every section is trimmed and blank sections are
dropped; with no heading at all the whole trimmed input is the only section;
the empty document yields no sections. -/
def splitMarkdownBySections (markdown : List Char) : List (List Char) :=
  if markdown = [] then []
  else
    let hm := findHeadingMatches markdown
    match hm with
    | [] => [trimSpace markdown]
    | first :: _ =>
      let starts := hm.map Prod.fst
      let pre :=
        if 0 < first.1 then
          let p := trimSpace (markdown.take first.1)
          if p = [] then [] else [p]
        else []
      let bounds := starts.zip (starts.tail ++ [markdown.length])
      pre ++ bounds.filterMap (fun se =>
        let sec := trimSpace ((markdown.take se.2).drop se.1)
        if sec = [] then none else some sec)

/-- Function `ExtractSectionHeader` (splitter package): the first match of
`(?m)^\s*(#+\s+.*)$` in the section — capture group 1 starts after the
leading whitespace of the whole-pattern match — trimmed; or empty if the
section is empty or has no heading line. -/
def extractSectionHeader (section_ : List Char) : List Char :=
  if section_ = [] then []
  else
    match findHeadingMatches section_ with
    | [] => []
    | (s, e) :: _ =>
      let seg := (section_.take e).drop s
      trimSpace (seg.dropWhile isWS)

/-- Modelled from the spec: `MarkdownNode` (spec §3), the record built by the
hierarchy parser `ParseMarkdownHierarchy`, whose Go source is absent from the
repository snapshot (only its unit tests and callers are present).  Fields
follow spec §3: heading title with markers stripped, heading depth, literal
marker, section content, the corresponding fields of the nearest ancestor
(empty/zero at top level), and the `" > "`-joined root-to-node path. -/
structure MarkdownNode where
  headingText : List Char
  level : ℕ
  marker : List Char
  content : List Char
  parentHeadingText : List Char
  parentLevel : ℕ
  parentMarker : List Char
  hierarchyPath : List Char
deriving DecidableEq

/-- The all-empty node, used as a `getD` default. -/
def noNode : MarkdownNode :=
  { headingText := [], level := 0, marker := [], content := []
    parentHeadingText := [], parentLevel := 0, parentMarker := []
    hierarchyPath := [] }

/-- Modelled from the spec: the per-heading data scanned in step 1 of the
hierarchy parse (spec §4.4), before parent information is attached. -/
structure HeadingInfo where
  level : ℕ
  marker : List Char
  headingText : List Char
  content : List Char
deriving DecidableEq

/-- Modelled from the spec: scan the document for heading lines using the
same pattern as the section splitter (spec §4.4 step 1) and read off each
marker, depth and title of each heading, and the content up to the next heading.
Titles and content are trimmed as the unit tests of the repository require
(a heading with another heading on the next line has empty content). -/
def headingInfosOf (md : List Char) : List HeadingInfo :=
  let hm := findHeadingMatches md
  let nexts := (hm.map Prod.fst).tail ++ [md.length]
  (hm.zip nexts).map fun se =>
    let t := md.drop se.1.1
    let afterWS := t.dropWhile isWS
    let marker := afterWS.takeWhile (· = '#')
    let afterHash := afterWS.dropWhile (· = '#')
    { level := marker.length
      marker := marker
      headingText := trimSpace ((afterHash.dropWhile isWS).takeWhile (· ≠ newlineChar))
      content := trimSpace ((md.take se.2).drop se.1.2) }

/-- Modelled from the spec: the separator of `hierarchyPath` components. -/
def hierarchySep : List Char := " > ".toList

/-- Modelled from the spec: the single left-to-right pass of
`ParseMarkdownHierarchy` over the heading sequence (spec §4.4 step 2),
maintaining the ancestor stack (head = nearest ancestor): pop entries with
`level ≥` the current level, read the parent fields off the new top, build
the path from the surviving stack (root first) plus the own title, then push
the node and emit it. -/
def parseHierarchyGo : List HeadingInfo → List MarkdownNode → List MarkdownNode
  | [], _ => []
  | info :: rest, stack =>
    let stack2 := stack.dropWhile (fun n => info.level ≤ n.level)
    let node : MarkdownNode :=
      { headingText := info.headingText
        level := info.level
        marker := info.marker
        content := info.content
        parentHeadingText := match stack2.head? with
          | some p => p.headingText
          | none => []
        parentLevel := match stack2.head? with
          | some p => p.level
          | none => 0
        parentMarker := match stack2.head? with
          | some p => p.marker
          | none => []
        hierarchyPath :=
          joinWithDelimiter
            (stack2.reverse.map MarkdownNode.headingText ++ [info.headingText])
            hierarchySep }
    node :: parseHierarchyGo rest (node :: stack2)

/-- Modelled from the spec: `ParseMarkdownHierarchy` (spec §4.4), absent from
the repository snapshot; parses the heading tree of a markdown document into
a flat ordered sequence of `MarkdownNode`. -/
def parseMarkdownHierarchy (md : List Char) : List MarkdownNode :=
  parseHierarchyGo (headingInfosOf md) []

/-- Modelled from the spec: the three-line rendering of one node
(spec §4.4 render contract): `"TITLE: " + marker + " " + headingText`,
`"HIERARCHY: " + hierarchyPath`, `"CONTENT: " + content`, joined by single
newlines, internal newlines of the content preserved. -/
def renderNode (n : MarkdownNode) : List Char :=
  "TITLE: ".toList ++ n.marker ++ ' ' :: n.headingText ++ newlineChar ::
    ("HIERARCHY: ".toList ++ n.hierarchyPath ++ newlineChar ::
      ("CONTENT: ".toList ++ n.content))

/-- Modelled from the spec: `ChunkWithMarkdownHierarchy` (spec §4.4), absent
from the repository snapshot; renders every parsed node. -/
def chunkWithMarkdownHierarchy (markdown : List Char) : List (List Char) :=
  (parseMarkdownHierarchy markdown).map renderNode

/-- Loop body of the `split_and_store_with_delimiter` tool
(src/mcptools/tool_markdown.go): for one piece of the delimiter split,
extract the first two non-empty lines as its header; when the piece exceeds
the embedding dimension, subdivide it with zero overlap and, if the header is
non-empty and there are at least two sub-pieces, prepend the header plus two
newlines to every sub-piece after the first. -/
def storeDelimiterPiece (chunk : List Char) (embeddingDim : ℕ) : List (List Char) :=
  let header := extractFirstNonEmptyLines chunk 2
  if embeddingDim < chunk.length then
    let subs := chunkText chunk embeddingDim 0
    if header ≠ [] ∧ 1 < subs.length then
      match subs with
      | [] => []
      | c0 :: rest => c0 :: rest.map (fun c => header ++ newlineChar :: newlineChar :: c)
    else subs
  else [chunk]

/-- Loop body of the `split_and_store_markdown_sections` tool
(src/mcptools/tool_markdown.go): identical to the delimiter loop except that
the header is the first heading line of the section. -/
def storeSectionPiece (section_ : List Char) (embeddingDim : ℕ) : List (List Char) :=
  let header := extractSectionHeader section_
  if embeddingDim < section_.length then
    let subs := chunkText section_ embeddingDim 0
    if header ≠ [] ∧ 1 < subs.length then
      match subs with
      | [] => []
      | c0 :: rest => c0 :: rest.map (fun c => header ++ newlineChar :: newlineChar :: c)
    else subs
  else [section_]

/-- Loop body of the `split_and_store_markdown_with_hierarchy` tool
(src/mcptools/tool_markdown.go): oversize chunks are subdivided with zero
overlap and stored as-is — no header is re-prepended. -/
def storeHierarchyPiece (chunk : List Char) (embeddingDim : ℕ) : List (List Char) :=
  if embeddingDim < chunk.length then chunkText chunk embeddingDim 0
  else [chunk]

/-- Request validation of `ChunkAndStoreHandler`
(src/api/chunk-overlap-handler.go): the handler rejects the request — before
ever calling `ChunkText` — unless the document is non-empty, `0 < chunkSize`,
`0 ≤ overlap`, `overlap < chunkSize`, and `chunkSize` is at most the
embedding dimension.  Parameters are Go `int`s, hence `ℤ` here. -/
def chunkAndStoreValid (document : List Char) (chunkSize overlap embeddingDim : ℤ) : Bool :=
  ¬document = [] ∧ 0 < chunkSize ∧ 0 ≤ overlap ∧ overlap < chunkSize ∧
    chunkSize ≤ embeddingDim

/-! Behavioural sanity checks -/

example : chunkText ("abcdef".toList) 3 1 = ["abc".toList, "cde".toList, "ef".toList] := by decide

example : chunkText ("abcde".toList) 2 0 = ["ab".toList, "cd".toList, "e".toList] := by decide

example : chunkText [] 3 1 = [] := by decide

example : splitTextWithDelimiter ("a,b,,c".toList) (",".toList) =
    ["a".toList, "b".toList, [], "c".toList] := by decide

example : splitTextWithDelimiter [] (",".toList) = [[]] := by decide

example : splitTextWithDelimiter [] [] = [] := by decide

example : extractFirstNonEmptyLines ("  a \n\n b\nc\nd".toList) 2 = "a\nb".toList := by decide

example : extractFirstNonEmptyLines ("   \n \n".toList) 2 = [] := by decide

example : findHeadingMatches ("# A\nB\n## C".toList) = [(0, 3), (6, 10)] := by decide

example : findHeadingMatches ("no heading here".toList) = [] := by decide

example : findHeadingMatches ("x\n  # T".toList) = [(2, 7)] := by decide

example : splitMarkdownBySections ("intro\n# A\nbody\n## B\ntail".toList) =
    ["intro".toList, "# A\nbody".toList, "## B\ntail".toList] := by decide

example : splitMarkdownBySections ("plain text".toList) = ["plain text".toList] := by decide

example : splitMarkdownBySections [] = [] := by decide

example : splitMarkdownBySections ("   ".toList) = [[]] := by decide

example : extractSectionHeader ("intro\n  ## Title x\nbody".toList) = "## Title x".toList := by
  decide

example : extractSectionHeader ("no heading".toList) = [] := by decide

example : (parseMarkdownHierarchy
    ("# Chapter 1\nChapter content.\n\n## Section 1.1\nSection content.\n\n### Subsection 1.1.1\nSubsection content.".toList)).map
      MarkdownNode.hierarchyPath =
    ["Chapter 1".toList, "Chapter 1 > Section 1.1".toList,
     "Chapter 1 > Section 1.1 > Subsection 1.1.1".toList] := by decide

example : (parseMarkdownHierarchy
    ("# Top Level\nContent.\n\n### Deep Level\nSkipped level 2.".toList)).map
      MarkdownNode.parentHeadingText =
    [[], "Top Level".toList] := by decide

example : (parseMarkdownHierarchy ("# Header 1\n## Header 2\n### Header 3".toList)).map
    MarkdownNode.content = [[], [], []] := by decide

example : parseMarkdownHierarchy [] = [] := by decide

example : chunkWithMarkdownHierarchy ("Just plain text with no headers.".toList) = [] := by
  decide

example : chunkWithMarkdownHierarchy ("# Main\nMain content.".toList) =
    ["TITLE: # Main\nHIERARCHY: Main\nCONTENT: Main content.".toList] := by decide

example : storeDelimiterPiece ("hdr\nxxxxxxx".toList) 4 =
    ["hdr\n".toList, "hdr\nxxxxxxx\n\nxxxx".toList, "hdr\nxxxxxxx\n\nxxx".toList] := by decide

example : storeHierarchyPiece ("abcdefg".toList) 3 =
    ["abc".toList, "def".toList, "g".toList] := by decide

/-! Supporting lemmas -/

theorem findDelimIdx_le (d : List Char) :
    ∀ t i, findDelimIdx d t = some i → i + d.length ≤ t.length := by
  intro t
  induction t with
  | nil =>
    intro i h
    simp only [findDelimIdx] at h
    split at h
    · rename_i hp
      simp only [List.isPrefixOf_iff_prefix] at hp
      obtain ⟨s, hs⟩ := hp
      simp only [Option.some.injEq] at h
      have : d = [] := by
        cases d with
        | nil => rfl
        | cons a l => simp at hs
      subst this
      simp [← h]
    · exact absurd h (by simp)
  | cons c rest ih =>
    intro i h
    simp only [findDelimIdx] at h
    split at h
    · rename_i hp
      simp only [Option.some.injEq] at h
      subst h
      simp only [List.isPrefixOf_iff_prefix] at hp
      have := hp.length_le
      simpa using this
    · simp only [Option.map_eq_some'] at h
      obtain ⟨j, hj, rfl⟩ := h
      have := ih j hj
      simp only [List.length_cons]
      omega

theorem findDelimIdx_reconstruct (d : List Char) :
    ∀ t i, findDelimIdx d t = some i →
      t.take i ++ d ++ t.drop (i + d.length) = t := by
  intro t
  induction t with
  | nil =>
    intro i h
    simp only [findDelimIdx] at h
    split at h
    · rename_i hp
      simp only [List.isPrefixOf_iff_prefix] at hp
      obtain ⟨s, hs⟩ := hp
      have hd : d = [] := by
        cases d with
        | nil => rfl
        | cons a l => simp at hs
      subst hd
      simp
    · exact absurd h (by simp)
  | cons c rest ih =>
    intro i h
    simp only [findDelimIdx] at h
    split at h
    · rename_i hp
      simp only [Option.some.injEq] at h
      subst h
      simp only [List.isPrefixOf_iff_prefix] at hp
      obtain ⟨s, hs⟩ := hp
      rw [← hs]
      simp [List.drop_left]
    · simp only [Option.map_eq_some'] at h
      obtain ⟨j, hj, rfl⟩ := h
      have := ih j hj
      simp only [List.take_succ_cons, List.cons_append]
      rw [show j + 1 + d.length = (j + d.length) + 1 by omega]
      simp only [List.drop_succ_cons]
      rw [List.append_assoc] at this ⊢
      rw [this]

theorem splitGoFuel_ne_nil (d : List Char) (f : ℕ) (t : List Char) :
    splitGoFuel d f t ≠ [] := by
  cases f with
  | zero => simp [splitGoFuel]
  | succ n =>
    simp only [splitGoFuel]
    split <;> simp

theorem splitGoFuel_irrel (d : List Char) (hd : d ≠ []) :
    ∀ f₁ f₂ t, t.length < f₁ → t.length < f₂ →
      splitGoFuel d f₁ t = splitGoFuel d f₂ t := by
  intro f₁
  induction f₁ with
  | zero => intro f₂ t h₁; omega
  | succ n ih =>
    intro f₂ t h₁ h₂
    cases f₂ with
    | zero => omega
    | succ m =>
      cases h : findDelimIdx d t with
      | none => simp only [splitGoFuel, h]
      | some i =>
        have hle := findDelimIdx_le d t i h
        have hdl : 0 < d.length := List.length_pos_of_ne_nil hd
        simp only [splitGoFuel, h]
        rw [ih m (t.drop (i + d.length)) (by simp only [List.length_drop]; omega)
          (by simp only [List.length_drop]; omega)]

theorem joinWithDelimiter_cons (p : List Char) (l : List (List Char)) (d : List Char)
    (hl : l ≠ []) : joinWithDelimiter (p :: l) d = p ++ d ++ joinWithDelimiter l d := by
  cases l with
  | nil => exact absurd rfl hl
  | cons q rest => rfl

theorem join_splitGoFuel (d : List Char) (hd : d ≠ []) :
    ∀ f t, t.length < f → joinWithDelimiter (splitGoFuel d f t) d = t := by
  intro f
  induction f with
  | zero => intro t h; omega
  | succ n ih =>
    intro t h
    cases hf : findDelimIdx d t with
    | none => simp [splitGoFuel, hf, joinWithDelimiter]
    | some i =>
      have hle := findDelimIdx_le d t i hf
      have hdl : 0 < d.length := List.length_pos_of_ne_nil hd
      simp only [splitGoFuel, hf]
      rw [joinWithDelimiter_cons _ _ _ (splitGoFuel_ne_nil d n _)]
      rw [ih (t.drop (i + d.length)) (by simp only [List.length_drop]; omega)]
      exact findDelimIdx_reconstruct d t i hf

theorem join_explode : ∀ t : List Char, joinWithDelimiter (t.map fun c => [c]) [] = t := by
  intro t
  induction t with
  | nil => rfl
  | cons c rest ih =>
    cases rest with
    | nil => rfl
    | cons c2 rest2 =>
      simp only [List.map_cons] at ih ⊢
      rw [joinWithDelimiter_cons _ _ _ (by simp)]
      simp only [List.append_nil, List.singleton_append]
      rw [ih]

theorem join_split (text delimiter : List Char) :
    joinWithDelimiter (splitTextWithDelimiter text delimiter) delimiter = text := by
  by_cases hd : delimiter = []
  · subst hd
    have hsplit : splitTextWithDelimiter text [] = text.map (fun c => [c]) := by
      simp [splitTextWithDelimiter]
    rw [hsplit, join_explode]
  · simp only [splitTextWithDelimiter, if_neg hd]
    exact join_splitGoFuel delimiter hd (text.length + 1) text (by omega)

theorem chunkTextLoop_length_le (text : List Char) (cs ov : ℕ) :
    ∀ fuel start x, x ∈ chunkTextLoop text cs ov start fuel → x.length ≤ cs := by
  intro fuel
  induction fuel with
  | zero => intro start x hx; simp [chunkTextLoop] at hx
  | succ n ih =>
    intro start x hx
    by_cases hlt : start < text.length
    · simp only [chunkTextLoop, if_pos hlt, List.mem_cons] at hx
      rcases hx with rfl | hx
      · simp only [List.length_take, List.length_drop]
        omega
      · exact ih _ x hx
    · simp [chunkTextLoop, if_neg hlt] at hx

theorem chunkTextLoop_getD (text : List Char) (cs ov : ℕ) (hov : ov < cs) :
    ∀ fuel start k, text.length - start < fuel →
      k < (chunkTextLoop text cs ov start fuel).length →
      (chunkTextLoop text cs ov start fuel).getD k [] =
        (text.drop (start + k * (cs - ov))).take cs := by
  intro fuel
  induction fuel with
  | zero => intro start k h hk; omega
  | succ n ih =>
    intro start k h hk
    by_cases hlt : start < text.length
    · simp only [chunkTextLoop, if_pos hlt] at hk ⊢
      cases k with
      | zero => simp
      | succ k =>
        simp only [List.length_cons] at hk
        simp only [List.getD_cons_succ]
        rw [ih (start + (cs - ov)) k (by omega) (by omega)]
        have harith : start + (cs - ov) + k * (cs - ov) = start + (k + 1) * (cs - ov) := by
          ring
        rw [harith]
    · simp only [chunkTextLoop, if_neg hlt, List.length_nil] at hk
      omega

theorem chunkTextLoop_cover (text : List Char) (cs ov : ℕ) (hov : ov < cs) :
    ∀ fuel start j, text.length - start < fuel → start ≤ j → j < text.length →
      ∃ k, k < (chunkTextLoop text cs ov start fuel).length ∧
        start + k * (cs - ov) ≤ j ∧
        j < start + k * (cs - ov) +
          ((chunkTextLoop text cs ov start fuel).getD k []).length := by
  intro fuel
  induction fuel with
  | zero => intro start j h hsj hj; omega
  | succ n ih =>
    intro start j h hsj hj
    have hlt : start < text.length := lt_of_le_of_lt hsj hj
    simp only [chunkTextLoop, if_pos hlt]
    by_cases hcase : j < start + cs
    · refine ⟨0, by simp, by simpa using hsj, ?_⟩
      simp only [List.getD_cons_zero, Nat.zero_mul, Nat.add_zero]
      simp only [List.length_take, List.length_drop]
      omega
    · push_neg at hcase
      have hsj2 : start + (cs - ov) ≤ j := by omega
      obtain ⟨k, hk1, hk2, hk3⟩ := ih (start + (cs - ov)) j (by omega) hsj2 hj
      have harith : start + (k + 1) * (cs - ov) = start + (cs - ov) + k * (cs - ov) := by
        ring
      refine ⟨k + 1, ?_, ?_, ?_⟩
      · simp only [List.length_cons]; omega
      · rw [harith]; exact hk2
      · rw [harith]
        simpa only [List.getD_cons_succ] using hk3

theorem chunkTextLoop_irrel (text : List Char) (cs ov : ℕ) (hov : ov < cs) :
    ∀ f₁ f₂ start, text.length - start < f₁ → text.length - start < f₂ →
      chunkTextLoop text cs ov start f₁ = chunkTextLoop text cs ov start f₂ := by
  intro f₁
  induction f₁ with
  | zero => intro f₂ start h₁; omega
  | succ n ih =>
    intro f₂ start h₁ h₂
    cases f₂ with
    | zero => omega
    | succ m =>
      by_cases hlt : start < text.length
      · simp only [chunkTextLoop, if_pos hlt]
        rw [ih m (start + (cs - ov)) (by omega) (by omega)]
      · simp only [chunkTextLoop, if_neg hlt]

theorem getD_map_of_lt (f : List Char → List Char) :
    ∀ (l : List (List Char)) j, j < l.length → (l.map f).getD j [] = f (l.getD j []) := by
  intro l
  induction l with
  | nil => intro j h; simp at h
  | cons a t ih =>
    intro j h
    cases j with
    | zero => simp
    | succ m =>
      simp only [List.map_cons, List.getD_cons_succ]
      exact ih m (by simpa using h)

theorem cons_map_tail_getD (c0 : List Char) (rest : List (List Char))
    (f : List Char → List Char) (i : ℕ) (h1 : 1 ≤ i) (h2 : i < (c0 :: rest).length) :
    (c0 :: rest.map f).getD i [] = f ((c0 :: rest).getD i []) := by
  cases i with
  | zero => omega
  | succ j =>
    simp only [List.getD_cons_succ]
    exact getD_map_of_lt f rest j (by simpa using h2)

theorem parseGo_consecutive :
    ∀ (hs : List HeadingInfo) (stack : List MarkdownNode) (i : ℕ),
      i + 1 < (parseHierarchyGo hs stack).length →
      ((parseHierarchyGo hs stack).getD i noNode).level <
        ((parseHierarchyGo hs stack).getD (i + 1) noNode).level →
      ((parseHierarchyGo hs stack).getD (i + 1) noNode).parentHeadingText =
        ((parseHierarchyGo hs stack).getD i noNode).headingText ∧
      ((parseHierarchyGo hs stack).getD (i + 1) noNode).parentLevel =
        ((parseHierarchyGo hs stack).getD i noNode).level ∧
      ((parseHierarchyGo hs stack).getD (i + 1) noNode).parentMarker =
        ((parseHierarchyGo hs stack).getD i noNode).marker := by
  intro hs
  induction hs with
  | nil => intro stack i h; simp [parseHierarchyGo] at h
  | cons info rest ih =>
    intro stack i h hlv
    cases i with
    | succ j =>
      simp only [parseHierarchyGo, List.getD_cons_succ, List.length_cons] at h hlv ⊢
      exact ih _ j (by omega) hlv
    | zero =>
      cases rest with
      | nil =>
        simp [parseHierarchyGo] at h
      | cons info2 rest2 =>
        simp only [parseHierarchyGo, List.getD_cons_succ, List.getD_cons_zero] at hlv ⊢
        have hneg : ¬ info2.level ≤ info.level := by omega
        simp [List.dropWhile_cons, hneg]

theorem mem_trimSpace {c : Char} {s : List Char} (h : c ∈ trimSpace s) : c ∈ s := by
  simp only [trimSpace, List.mem_reverse] at h
  have h2 := (List.dropWhile_sublist isGoSpace).mem h
  simp only [List.mem_reverse] at h2
  exact (List.dropWhile_sublist isGoSpace).mem h2

theorem join_mem {c : Char} :
    ∀ (pieces : List (List Char)) (d : List Char),
      c ∈ joinWithDelimiter pieces d → (∃ p ∈ pieces, c ∈ p) ∨ c ∈ d := by
  intro pieces
  induction pieces with
  | nil => intro d h; simp [joinWithDelimiter] at h
  | cons p rest ih =>
    intro d h
    cases rest with
    | nil =>
      exact Or.inl ⟨p, by simp, h⟩
    | cons q rest2 =>
      rw [joinWithDelimiter_cons p (q :: rest2) d (by simp)] at h
      simp only [List.mem_append] at h
      rcases h with (hp | hd) | hj
      · exact Or.inl ⟨p, by simp, hp⟩
      · exact Or.inr hd
      · rcases ih d hj with ⟨r, hr1, hr2⟩ | hd
        · exact Or.inl ⟨r, by simp [hr1], hr2⟩
        · exact Or.inr hd

theorem headingInfosOf_no_newline (md : List Char) :
    ∀ info ∈ headingInfosOf md,
      newlineChar ∉ info.headingText ∧ newlineChar ∉ info.marker := by
  intro info hinfo
  simp only [headingInfosOf, List.mem_map] at hinfo
  obtain ⟨se, _, rfl⟩ := hinfo
  constructor
  · intro hmem
    have h1 := mem_trimSpace hmem
    have h2 := List.mem_takeWhile_imp h1
    simp at h2
  · intro hmem
    have h2 := List.mem_takeWhile_imp hmem
    simp only [decide_eq_true_eq] at h2
    exact absurd h2 (by decide)

theorem parseGo_no_newline :
    ∀ (hs : List HeadingInfo) (stack : List MarkdownNode),
      (∀ info ∈ hs, newlineChar ∉ info.headingText ∧ newlineChar ∉ info.marker) →
      (∀ n ∈ stack, newlineChar ∉ n.headingText) →
      ∀ node ∈ parseHierarchyGo hs stack,
        newlineChar ∉ node.headingText ∧ newlineChar ∉ node.marker ∧
          newlineChar ∉ node.hierarchyPath := by
  intro hs
  induction hs with
  | nil => intro stack _ _ node hnode; simp [parseHierarchyGo] at hnode
  | cons info rest ih =>
    intro stack hinfos hstack node hnode
    have hinfo := hinfos info (by simp)
    have hstack2 : ∀ n ∈ stack.dropWhile (fun n => info.level ≤ n.level),
        newlineChar ∉ n.headingText := by
      intro n hn
      exact hstack n ((List.dropWhile_sublist _).mem hn)
    have hpath : newlineChar ∉
        joinWithDelimiter
          ((stack.dropWhile (fun n => info.level ≤ n.level)).reverse.map
              MarkdownNode.headingText ++ [info.headingText]) hierarchySep := by
      intro hmem
      rcases join_mem _ _ hmem with ⟨p, hp1, hp2⟩ | hsep
      · simp only [List.mem_append, List.mem_map, List.mem_reverse,
          List.mem_singleton] at hp1
        rcases hp1 with ⟨n, hn, rfl⟩ | rfl
        · exact hstack2 n hn hp2
        · exact hinfo.1 hp2
      · exact absurd hsep (by decide)
    simp only [parseHierarchyGo, List.mem_cons] at hnode
    rcases hnode with rfl | hnode
    · exact ⟨hinfo.1, hinfo.2, hpath⟩
    · refine ih _ (fun i hi => hinfos i (by simp [hi])) ?_ node hnode
      intro n hn
      simp only [List.mem_cons] at hn
      rcases hn with rfl | hn
      · exact hinfo.1
      · exact hstack2 n hn

theorem findDelimIdx_single (ch : Char) (b : List Char) :
    ∀ a : List Char, (∀ x ∈ a, x ≠ ch) →
      findDelimIdx [ch] (a ++ ch :: b) = some a.length := by
  intro a
  induction a with
  | nil =>
    intro _
    simp [findDelimIdx, List.isPrefixOf]
  | cons x a2 ih =>
    intro ha
    have hx : x ≠ ch := ha x (by simp)
    simp only [List.cons_append, findDelimIdx]
    rw [if_neg]
    · have hih := ih (fun y hy => ha y (by simp [hy]))
      simp [List.append_eq, hih]
    · simp [List.isPrefixOf, Ne.symm hx]

theorem findDelimIdx_ge (ch : Char) :
    ∀ (a c : List Char) i, (∀ x ∈ a, x ≠ ch) →
      findDelimIdx [ch] (a ++ c) = some i → a.length ≤ i := by
  intro a
  induction a with
  | nil => intro c i _ _; simp
  | cons x a2 ih =>
    intro c i ha h
    have hx : x ≠ ch := ha x (by simp)
    simp only [List.cons_append, findDelimIdx] at h
    rw [if_neg (by simp [List.isPrefixOf, Ne.symm hx])] at h
    simp only [Option.map_eq_some'] at h
    obtain ⟨j, hj, rfl⟩ := h
    have := ih c j (fun y hy => ha y (by simp [hy])) hj
    simp only [List.length_cons]
    omega

theorem linesOf_ne_nil (s : List Char) : linesOf s ≠ [] := by
  simp only [linesOf, splitTextWithDelimiter]
  rw [if_neg (by decide)]
  exact splitGoFuel_ne_nil _ _ _

theorem lines_append_cons (a b : List Char) (ha : newlineChar ∉ a) :
    linesOf (a ++ newlineChar :: b) = a :: linesOf b := by
  have hne : ([newlineChar] : List Char) ≠ [] := by decide
  have hfind : findDelimIdx [newlineChar] (a ++ newlineChar :: b) = some a.length :=
    findDelimIdx_single newlineChar b a (fun x hx => by
      intro hxe; exact ha (hxe ▸ hx))
  simp only [linesOf, splitTextWithDelimiter, if_neg hne]
  have hlen : (a ++ newlineChar :: b).length + 1 = (a.length + b.length + 1) + 1 := by
    simp only [List.length_append, List.length_cons]
    omega
  rw [hlen]
  simp only [splitGoFuel, hfind]
  congr 1
  · exact List.take_left a (newlineChar :: b)
  · have hdrop : (a ++ newlineChar :: b).drop (a.length + [newlineChar].length) = b := by
      rw [show a ++ newlineChar :: b = (a ++ [newlineChar]) ++ b by simp]
      rw [show a.length + [newlineChar].length = (a ++ [newlineChar]).length by simp]
      exact List.drop_left _ _
    rw [hdrop]
    exact splitGoFuel_irrel [newlineChar] hne (a.length + b.length + 1) (b.length + 1) b
      (by omega) (by omega)

theorem lines_getD0_take (a c : List Char) (ha : newlineChar ∉ a) :
    ((linesOf (a ++ c)).getD 0 []).take a.length = a := by
  have hne : ([newlineChar] : List Char) ≠ [] := by decide
  simp only [linesOf, splitTextWithDelimiter, if_neg hne]
  cases hf : findDelimIdx [newlineChar] (a ++ c) with
  | none =>
    have h1 : (a ++ c).length + 1 = (a ++ c).length + 1 := rfl
    simp only [splitGoFuel, hf, List.getD_cons_zero]
    exact List.take_left a c
  | some i =>
    have hge : a.length ≤ i :=
      findDelimIdx_ge newlineChar a c i (fun x hx => by
        intro hxe; exact ha (hxe ▸ hx)) hf
    simp only [splitGoFuel, hf, List.getD_cons_zero]
    rw [List.take_take, min_eq_left hge]
    exact List.take_left a c

theorem linesOf_render (n : MarkdownNode) (h1 : newlineChar ∉ n.marker)
    (h2 : newlineChar ∉ n.headingText) (h3 : newlineChar ∉ n.hierarchyPath) :
    linesOf (renderNode n) =
      ("TITLE: ".toList ++ n.marker ++ ' ' :: n.headingText) ::
        ("HIERARCHY: ".toList ++ n.hierarchyPath) ::
          linesOf ("CONTENT: ".toList ++ n.content) := by
  have hA : newlineChar ∉ ("TITLE: ".toList ++ n.marker ++ ' ' :: n.headingText) := by
    intro h
    simp only [List.mem_append, List.mem_cons] at h
    rcases h with (h | h) | h | h
    · exact absurd h (by decide)
    · exact h1 h
    · exact absurd h (by decide)
    · exact h2 h
  have hB : newlineChar ∉ ("HIERARCHY: ".toList ++ n.hierarchyPath) := by
    intro h
    simp only [List.mem_append] at h
    rcases h with h | h
    · exact absurd h (by decide)
    · exact h3 h
  have hform : renderNode n =
      ("TITLE: ".toList ++ n.marker ++ ' ' :: n.headingText) ++ newlineChar ::
        (("HIERARCHY: ".toList ++ n.hierarchyPath) ++ newlineChar ::
          ("CONTENT: ".toList ++ n.content)) := by
    simp [renderNode]
  rw [hform, lines_append_cons _ _ hA, lines_append_cons _ _ hB]

/-! Claim theorems -/

/-- C1: for `0 < windowSize` and `0 ≤ overlap < windowSize` the chunks of
`ChunkText` cover `[0, length(text))` with no gaps — the `k`-th chunk is
`text[k·stride : k·stride + windowSize]` (`stride = windowSize − overlap`)
and every text position lies inside at least one chunk — and every chunk
whose window lies entirely inside the text (`k·stride + windowSize ≤
length`) has length exactly `windowSize`.  (Amended: with `overlap > 0`,
several trailing chunks — not only the very last — are truncated by the end
of the text and may be shorter than `windowSize`; see the counterexample.) -/
theorem c1_fixed_window_coverage (text : List Char) (cs ov : ℕ)
    (_hcs : 0 < cs) (hov : ov < cs) :
    (∀ k, k < (chunkText text cs ov).length →
      (chunkText text cs ov).getD k [] = (text.drop (k * (cs - ov))).take cs)
    ∧ (∀ j, j < text.length →
      ∃ k, k < (chunkText text cs ov).length ∧ k * (cs - ov) ≤ j ∧
        j < k * (cs - ov) + ((chunkText text cs ov).getD k []).length)
    ∧ (∀ k, k < (chunkText text cs ov).length →
      k * (cs - ov) + cs ≤ text.length →
      ((chunkText text cs ov).getD k []).length = cs) := by
  refine ⟨?_, ?_, ?_⟩
  · intro k hk
    have h := chunkTextLoop_getD text cs ov hov (text.length + 1) 0 k (by omega) hk
    simpa only [Nat.zero_add] using h
  · intro j hj
    have h := chunkTextLoop_cover text cs ov hov (text.length + 1) 0 j (by omega)
      (Nat.zero_le j) hj
    simpa only [Nat.zero_add] using h
  · intro k hk hin
    have h := chunkTextLoop_getD text cs ov hov (text.length + 1) 0 k (by omega) hk
    simp only [Nat.zero_add] at h
    rw [show chunkText text cs ov = chunkTextLoop text cs ov 0 (text.length + 1) from rfl, h]
    simp only [List.length_take, List.length_drop]
    omega

/-- C1 counterexample: with `text = "0123456789"`, `windowSize = 4`,
`overlap = 3` the chunker returns 10 chunks, and chunk index 7 — which is
not the last chunk — has length 3, not `windowSize = 4`.  This refutes
"every chunk except possibly the last has length exactly windowSize". -/
theorem c1_counterexample :
    (chunkText ("0123456789".toList) 4 3).length = 10 ∧
    ((chunkText ("0123456789".toList) 4 3).getD 7 []).length = 3 := by decide

/-- C1 witness: the amended coverage theorem applied at a concrete input. -/
theorem c1_witness :
    (chunkText ("abcdef".toList) 3 1).getD 0 [] =
      (("abcdef".toList).drop (0 * (3 - 1))).take 3 :=
  (c1_fixed_window_coverage ("abcdef".toList) 3 1 (by decide) (by decide)).1 0 (by decide)

/-- C2: (amended) on the empty input string, `ChunkText`,
`SplitMarkdownBySections` and `ChunkWithMarkdownHierarchy` return the empty
sequence, but `SplitTextWithDelimiter` — Go `strings.Split` — returns the
one-element sequence containing the empty string for every non-empty
delimiter (and the empty sequence for the empty delimiter). -/
theorem c2_empty_input (cs ov : ℕ) (d : List Char) (hd : d ≠ []) :
    chunkText [] cs ov = [] ∧
    splitMarkdownBySections [] = [] ∧
    chunkWithMarkdownHierarchy [] = [] ∧
    splitTextWithDelimiter [] d = [[]] := by
  refine ⟨by simp [chunkText, chunkTextLoop], by decide, by decide, ?_⟩
  simp only [splitTextWithDelimiter, if_neg hd]
  have hfind : findDelimIdx d [] = none := by
    simp only [findDelimIdx]
    rw [if_neg]
    simp [List.isPrefixOf_iff_prefix, hd]
  simp [splitGoFuel, hfind]

/-- C2 counterexample: the delimiter splitter on the empty string returns
`[""]`, a one-element sequence containing the empty string, not `[]`. -/
theorem c2_counterexample :
    splitTextWithDelimiter [] ("-".toList) = [[]] ∧
    ([[]] : List (List Char)) ≠ [] := by decide

/-- C2 witness: the amended theorem applied at concrete parameters. -/
theorem c2_witness :
    chunkText [] 3 1 = [] ∧
    splitMarkdownBySections [] = [] ∧
    chunkWithMarkdownHierarchy [] = [] ∧
    splitTextWithDelimiter [] (",".toList) = [[]] :=
  c2_empty_input 3 1 (",".toList) (by decide)

/-- C3: (amended) on input with no heading-regex match,
`SplitMarkdownBySections` returns the empty sequence when the input is the
empty string and the one-element sequence `[trim(input)]` otherwise — in
particular, for whitespace-only non-empty input the single element is the
EMPTY string (`[""]`), not the empty sequence the claim asserts for blank
input; see the counterexample. -/
theorem c3_headingless_split (md : List Char) (h : findHeadingMatches md = []) :
    splitMarkdownBySections md = if md = [] then [] else [trimSpace md] := by
  by_cases hmd : md = []
  · simp [splitMarkdownBySections, hmd]
  · simp [splitMarkdownBySections, hmd, h]

/-- C3 counterexample: the whitespace-only (hence blank, headingless) input
`" "` yields `[""]`, a one-element sequence containing the empty string,
not the empty sequence `[]` the claim asserts for blank input. -/
theorem c3_counterexample :
    splitMarkdownBySections (" ".toList) = [[]] ∧
    ([[]] : List (List Char)) ≠ [] := by decide

/-- C3 witness: the amended theorem applied at a concrete headingless
input. -/
theorem c3_witness :
    splitMarkdownBySections ("hello world".toList) =
      if ("hello world".toList : List Char) = [] then []
      else [trimSpace ("hello world".toList)] :=
  c3_headingless_split ("hello world".toList) (by decide)

/-- C4: (amended) every chunk produced by `ChunkWithMarkdownHierarchy` — the
rendering of one parsed node — consists of AT LEAST three lines, the first
three of which are, in order, exactly `"TITLE: " + marker + " " +
headingText`, exactly `"HIERARCHY: " + hierarchyPath`, and a line beginning
with `"CONTENT: "`; when the content of the node contains internal newlines the
content spills onto additional lines after the third (see the
counterexample), so "exactly three lines" does not hold in general. -/
theorem c4_render_format (md : List Char) (n : MarkdownNode)
    (hn : n ∈ parseMarkdownHierarchy md) :
    chunkWithMarkdownHierarchy md = (parseMarkdownHierarchy md).map renderNode ∧
    3 ≤ (linesOf (renderNode n)).length ∧
    (linesOf (renderNode n)).getD 0 [] =
      "TITLE: ".toList ++ n.marker ++ ' ' :: n.headingText ∧
    (linesOf (renderNode n)).getD 1 [] = "HIERARCHY: ".toList ++ n.hierarchyPath ∧
    ((linesOf (renderNode n)).getD 2 []).take ("CONTENT: ".toList).length =
      "CONTENT: ".toList := by
  obtain ⟨hh, hm, hp⟩ :=
    parseGo_no_newline (headingInfosOf md) [] (headingInfosOf_no_newline md)
      (by simp) n hn
  have hlr := linesOf_render n hm hh hp
  refine ⟨rfl, ?_, ?_, ?_, ?_⟩
  · rw [hlr]
    simp only [List.length_cons]
    have hpos := List.length_pos.mpr (linesOf_ne_nil ("CONTENT: ".toList ++ n.content))
    omega
  · rw [hlr]; rfl
  · rw [hlr]; rfl
  · rw [hlr]
    simp only [List.getD_cons_succ]
    exact lines_getD0_take ("CONTENT: ".toList) n.content (by decide)

/-- C4 counterexample: for the document `"# H\nline1\nline2"` the single
rendered chunk has FOUR lines (its content keeps the internal newline), not
exactly three as claimed. -/
theorem c4_counterexample :
    (chunkWithMarkdownHierarchy ("# H\nline1\nline2".toList)).length = 1 ∧
    (linesOf ((chunkWithMarkdownHierarchy ("# H\nline1\nline2".toList)).getD 0 [])).length =
      4 := by decide

/-- C4 witness: the amended format theorem applied at the concrete document
of the format unit test in the repository. -/
theorem c4_witness :
    3 ≤ (linesOf (renderNode
      { headingText := "Main".toList, level := 1, marker := "#".toList,
        content := "Main content.".toList, parentHeadingText := [], parentLevel := 0,
        parentMarker := [], hierarchyPath := "Main".toList })).length :=
  (c4_render_format ("# Main\nMain content.".toList)
    { headingText := "Main".toList, level := 1, marker := "#".toList,
      content := "Main content.".toList, parentHeadingText := [], parentLevel := 0,
      parentMarker := [], hierarchyPath := "Main".toList } (by decide)).2.1

/-- C5: every sub-piece produced by the oversize subdivider (`ChunkText`
with window `sizeLimit` and overlap `0`) has length at most `sizeLimit`
before any header is prepended; and after the extracted header is
prepended, sub-pieces other than the first may exceed `sizeLimit` — at the
concrete piece `"hdr\nxxxxxxx"` with limit 4, sub-piece 1 has length 17. -/
theorem c5_subdivision_bound :
    (∀ piece limit x, 0 < limit → x ∈ chunkText piece limit 0 → x.length ≤ limit)
    ∧ 4 < ((storeDelimiterPiece ("hdr\nxxxxxxx".toList) 4).getD 1 []).length := by
  constructor
  · intro piece limit x _ hx
    exact chunkTextLoop_length_le piece limit 0 _ 0 x hx
  · decide

/-- C5 witness: the bound applied at a concrete input. -/
theorem c5_witness : ("ab".toList).length ≤ 2 :=
  c5_subdivision_bound.1 ("abcde".toList) 2 ("ab".toList) (by decide) (by decide)

/-- C6: (amended) when a piece of the delimiter strategy or the
markdown-section strategy exceeds the embedding dimension and is
subdivided, and the extracted header is NON-empty, every sub-piece except
the first is the header joined to the original sub-piece by exactly two
newline characters; when the extracted header is empty (an all-blank piece,
or a section with no heading line) the sub-pieces are stored unmodified —
see the counterexample; the markdown-hierarchy strategy never prepends
anything on subdivision. -/
theorem c6_header_prepending :
    (∀ chunk dim i, dim < chunk.length →
      extractFirstNonEmptyLines chunk 2 ≠ [] →
      1 ≤ i → i < (chunkText chunk dim 0).length →
      (storeDelimiterPiece chunk dim).getD i [] =
        extractFirstNonEmptyLines chunk 2 ++ newlineChar :: newlineChar ::
          ((chunkText chunk dim 0).getD i []))
    ∧ (∀ sec dim i, dim < sec.length →
      extractSectionHeader sec ≠ [] →
      1 ≤ i → i < (chunkText sec dim 0).length →
      (storeSectionPiece sec dim).getD i [] =
        extractSectionHeader sec ++ newlineChar :: newlineChar ::
          ((chunkText sec dim 0).getD i []))
    ∧ (∀ chunk dim, dim < chunk.length →
      storeHierarchyPiece chunk dim = chunkText chunk dim 0) := by
  refine ⟨?_, ?_, ?_⟩
  · intro chunk dim i hdim hh h1 h2
    simp only [storeDelimiterPiece]
    rw [if_pos hdim, if_pos ⟨hh, by omega⟩]
    cases hsubs : chunkText chunk dim 0 with
    | nil => rw [hsubs] at h2; simp at h2
    | cons c0 rest =>
      rw [hsubs] at h2
      exact cons_map_tail_getD c0 rest _ i h1 h2
  · intro sec dim i hdim hh h1 h2
    simp only [storeSectionPiece]
    rw [if_pos hdim, if_pos ⟨hh, by omega⟩]
    cases hsubs : chunkText sec dim 0 with
    | nil => rw [hsubs] at h2; simp at h2
    | cons c0 rest =>
      rw [hsubs] at h2
      exact cons_map_tail_getD c0 rest _ i h1 h2
  · intro chunk dim hdim
    simp only [storeHierarchyPiece]
    rw [if_pos hdim]

/-- C6 counterexample: the all-whitespace piece `"      "` (six spaces)
exceeds the limit 2 and is subdivided into three sub-pieces, yet — its
extracted header being empty — sub-piece 1 is stored unmodified, with no
two-newline join prepended, refuting the unconditional claim. -/
theorem c6_counterexample :
    2 < ("      ".toList).length ∧
    1 < (chunkText ("      ".toList) 2 0).length ∧
    (storeDelimiterPiece ("      ".toList) 2).getD 1 [] ≠
      extractFirstNonEmptyLines ("      ".toList) 2 ++ newlineChar :: newlineChar ::
        ((chunkText ("      ".toList) 2 0).getD 1 []) := by decide

/-- C6 witness: the amended theorem applied at a piece with a non-empty
header. -/
theorem c6_witness :
    (storeDelimiterPiece ("hdr\nxxxxxxx".toList) 4).getD 1 [] =
      extractFirstNonEmptyLines ("hdr\nxxxxxxx".toList) 2 ++
        newlineChar :: newlineChar :: ((chunkText ("hdr\nxxxxxxx".toList) 4 0).getD 1 []) :=
  c6_header_prepending.1 ("hdr\nxxxxxxx".toList) 4 1 (by decide) (by decide) (by decide)
    (by decide)

/-- C7: whenever a parsed heading is directly followed by a strictly deeper
heading — whether or not intermediate levels are skipped — the parent fields
of the deeper node are exactly the heading text, level and
marker, because the ancestor-stack pop removes only entries whose level is
`≥` the level of the new node and therefore leaves the shallower node on top. -/
theorem c7_level_skip_parenting (md : List Char) (i : ℕ)
    (h : i + 1 < (parseMarkdownHierarchy md).length)
    (hlv : ((parseMarkdownHierarchy md).getD i noNode).level <
      ((parseMarkdownHierarchy md).getD (i + 1) noNode).level) :
    ((parseMarkdownHierarchy md).getD (i + 1) noNode).parentHeadingText =
      ((parseMarkdownHierarchy md).getD i noNode).headingText ∧
    ((parseMarkdownHierarchy md).getD (i + 1) noNode).parentLevel =
      ((parseMarkdownHierarchy md).getD i noNode).level :=
  ⟨(parseGo_consecutive (headingInfosOf md) [] i h hlv).1,
   (parseGo_consecutive (headingInfosOf md) [] i h hlv).2.1⟩

/-- C7 witness: the level-skip example of the spec, `# Top` directly followed
by `### Deep`: the parent heading text of node 1 is the heading text of
node 0 (namely "Top Level"). -/
theorem c7_witness :
    ((parseMarkdownHierarchy
        ("# Top Level\nContent.\n\n### Deep Level\nSkipped level 2.".toList)).getD 1
          noNode).parentHeadingText =
      ((parseMarkdownHierarchy
        ("# Top Level\nContent.\n\n### Deep Level\nSkipped level 2.".toList)).getD 0
          noNode).headingText :=
  (c7_level_skip_parenting
    ("# Top Level\nContent.\n\n### Deep Level\nSkipped level 2.".toList) 0
    (by decide) (by decide)).1



/-- C8: joining the pieces of `SplitTextWithDelimiter` with the same
delimiter reproduces the original text exactly, for every text and every
delimiter (including the empty one, where the Go split explodes the text into
single characters and the join concatenates them back). -/
theorem c8_delimiter_round_trip (text delimiter : List Char) :
    joinWithDelimiter (splitTextWithDelimiter text delimiter) delimiter = text :=
  join_split text delimiter

/-- C9: whenever the request validation of `ChunkAndStoreHandler` passes,
`overlap < chunkSize` holds (the validation happens before `ChunkText` is
ever called), the stride is positive, and the `ChunkText` loop terminates:
its result is already stable at `length(document) + 1` loop iterations —
any larger iteration bound computes the same chunk list. -/
theorem c9_chunker_terminates (document : List Char) (chunkSize overlap embeddingDim : ℤ)
    (hv : chunkAndStoreValid document chunkSize overlap embeddingDim = true) :
    overlap < chunkSize ∧ 0 < chunkSize.toNat - overlap.toNat ∧
    ∀ fuel, document.length < fuel →
      chunkTextLoop document chunkSize.toNat overlap.toNat 0 fuel =
        chunkText document chunkSize.toNat overlap.toNat := by
  simp only [chunkAndStoreValid, decide_eq_true_eq] at hv
  obtain ⟨hne, hcs, hov0, hovcs, hdim⟩ := hv
  refine ⟨hovcs, by omega, ?_⟩
  intro fuel hf
  exact chunkTextLoop_irrel document chunkSize.toNat overlap.toNat (by omega)
    fuel (document.length + 1) 0 (by omega) (by omega)

/-- C9 witness: the termination theorem applied at a concrete request. -/
theorem c9_witness :
    chunkTextLoop ("abcd".toList) (2 : ℤ).toNat (1 : ℤ).toNat 0 9 =
      chunkText ("abcd".toList) (2 : ℤ).toNat (1 : ℤ).toNat :=
  (c9_chunker_terminates ("abcd".toList) 2 1 5 (by decide)).2.2 9 (by decide)

/-- C10: (amended) for every text and every NON-empty delimiter,
`SplitTextWithDelimiter` returns at least one piece, so the
"No chunks generated from the document" branch that follows the split in
the `split_and_store_with_delimiter` tool — which has already rejected
requests with an empty delimiter — can never be taken.  (The original
universally quantified claim fails only for the empty delimiter together
with the empty input, see the counterexample; that combination is rejected
by the parameter validation of the tool before the split runs.) -/
theorem c10_split_nonempty (text delimiter : List Char) (hd : delimiter ≠ []) :
    1 ≤ (splitTextWithDelimiter text delimiter).length := by
  simp only [splitTextWithDelimiter, if_neg hd]
  exact List.length_pos.mpr (splitGoFuel_ne_nil delimiter (text.length + 1) text)

/-- C10 counterexample: Go `strings.Split("", "")` returns the empty
slice, so on the empty input with the empty delimiter the split yields zero
elements, refuting "at least one element for every input string and every
delimiter". -/
theorem c10_counterexample : (splitTextWithDelimiter [] []).length = 0 := by decide

/-- C10 witness: the amended theorem applied at a concrete input. -/
theorem c10_witness : 1 ≤ (splitTextWithDelimiter [] (",".toList)).length :=
  c10_split_nonempty [] (",".toList) (by decide)

end VectorMind
